import Mathlib

/-!
Verification of the request deduplication / memoization layer of the
`economics` repository (`src/src/lib/context-manager.ts`).

The TypeScript sources are shallowly embedded: pure helpers become Lean
functions over `List Char` / `String`, the dynamic JS values that flow
through `canonOptions` and `JSON.stringify` become the inductive `JVal`
(JS numbers are modelled as integers; floating point is not needed by any
claim), and the stateful pieces (in-flight registry, session memo,
per-request seen sets) become explicit state-passing step functions.
JS string comparison (default `Array.prototype.sort`, `localeCompare` on
ASCII JSON text) is modelled as lexicographic comparison of character
codes.
-/

set_option maxHeartbeats 1000000

namespace Econ

/-! ### Characters and strings

All character-level helpers are written over `List Char` so that every
definition evaluates by kernel reduction. -/

/-- Lexicographic comparison of character lists by code point, the model of
JS string comparison (`<`, default `sort`, `localeCompare` on the ASCII
strings produced by `JSON.stringify`). -/
def charListLe : List Char → List Char → Bool
  | [], _ => true
  | _ :: _, [] => false
  | a :: as, b :: bs =>
    if a.toNat < b.toNat then true
    else if b.toNat < a.toNat then false
    else charListLe as bs

/-- String comparison via `charListLe` on the underlying characters. -/
def strLe (a b : String) : Bool := charListLe a.data b.data

/-- Naive substring test, the model of JS `String.prototype.includes`:
`listHasPrefix s pat` checks that `pat` is a prefix of `s`. -/
def listHasPrefix : List Char → List Char → Bool
  | _, [] => true
  | [], _ :: _ => false
  | c :: s, p :: ps => c == p && listHasPrefix s ps

/-- `listContainsSub pat s` checks that `pat` occurs somewhere in `s`. -/
def listContainsSub (pat : List Char) : List Char → Bool
  | [] => pat.isEmpty
  | c :: t => listHasPrefix (c :: t) pat || listContainsSub pat t

/-- Model of JS `msg.includes(pat)`. -/
def strContains (s pat : String) : Bool := listContainsSub pat.data s.data

/-! ### JSON values (`JVal`) and `JSON.stringify` -/

/-- JSON-like values: the dynamic JS values that flow through
`canonOptions`, `JSON.stringify` and the tool-option objects.  JS numbers
are modelled as integers. -/
inductive JVal where
  | null : JVal
  | bool (b : Bool) : JVal
  | num (n : Int) : JVal
  | str (s : String) : JVal
  | arr (elems : List JVal) : JVal
  | obj (fields : List (String × JVal)) : JVal

/-- `v === undefined || v === null` on a JS value (both modelled by
`JVal.null`). -/
def JVal.isNull : JVal → Bool
  | .null => true
  | _ => false

/-- `JSON.stringify` escaping of one string character (quote and backslash;
the control-character escapes are irrelevant to every claim and elided). -/
def escChar (c : Char) : List Char :=
  if c = '"' || c = '\\' then ['\\', c] else [c]

/-- `JSON.stringify` escaping of a string body. -/
def escapeChars : List Char → List Char
  | [] => []
  | c :: cs => escChar c ++ escapeChars cs

/-- Serialization of one string in JSON form, quotes included. -/
def jstrOfString (s : String) : String :=
  String.mk ('"' :: (escapeChars s.data ++ ['"']))

mutual
/-- Model of `JSON.stringify` on `JVal` (compact form, as JS produces:
no whitespace, object fields in stored order). -/
def jstr : JVal → String
  | .null => "null"
  | .bool true => "true"
  | .bool false => "false"
  | .num n => toString n
  | .str s => jstrOfString s
  | .arr xs => "[" ++ jstrList xs ++ "]"
  | .obj fs => "\x7b" ++ jstrFields fs ++ "\x7d"

/-- Comma-separated serialization of array elements. -/
def jstrList : List JVal → String
  | [] => ""
  | [x] => jstr x
  | x :: y :: xs => jstr x ++ "," ++ jstrList (y :: xs)

/-- Comma-separated serialization of object fields. -/
def jstrFields : List (String × JVal) → String
  | [] => ""
  | [(k, v)] => jstrOfString k ++ ":" ++ jstr v
  | (k, v) :: f :: fs => jstrOfString k ++ ":" ++ jstr v ++ "," ++ jstrFields (f :: fs)
end

/-! ### `canonQuery` / `canonOptions` / `buildToolKey` / `inflightKey`
(source lines 297–353) -/

/-- Model of the JS `\s` character class (Unicode whitespace). -/
def isJsWs (c : Char) : Bool := c.isWhitespace

/-- `queryStr.trim()`: strip whitespace from both ends. -/
def trimChars (l : List Char) : List Char :=
  ((l.dropWhile isJsWs).reverse.dropWhile isJsWs).reverse

/-- `.replace(/\s+/g, " ")`: collapse each maximal whitespace run to one
space. -/
def collapseWs : List Char → List Char
  | [] => []
  | [c] => if isJsWs c then [' '] else [c]
  | c :: d :: cs =>
    if isJsWs c then
      if isJsWs d then collapseWs (d :: cs)
      else ' ' :: collapseWs (d :: cs)
    else c :: collapseWs (d :: cs)

/-- Source `canonQuery` (line 326): trim, collapse internal whitespace runs
to a single space, lowercase. -/
def canonQuery (q : String) : String :=
  String.mk (((collapseWs (trimChars q.data))).map Char.toLower)

/-- Ordering of object fields by key, as produced by
`Object.keys(input).sort()` (JS default sort: lexicographic by code unit). -/
def fieldLe (a b : String × JVal) : Prop := charListLe a.1.data b.1.data = true

instance : DecidableRel fieldLe := fun _ _ =>
  inferInstanceAs (Decidable (_ = true))

/-- Ordering of canonicalized array elements by their serialized form, as
produced by `.sort((a, b) => JSON.stringify(a).localeCompare(JSON.stringify(b)))`. -/
def serLe (a b : JVal) : Prop := charListLe (jstr a).data (jstr b).data = true

instance : DecidableRel serLe := fun _ _ =>
  inferInstanceAs (Decidable (_ = true))

mutual
/-- Source `canonOptions` (lines 331–349).  Arrays: canonicalize each
element, then sort by serialized form.  Objects: drop keys whose value is
null/undefined, canonicalize the remaining values, and emit fields in
sorted key order.  (The source iterates `Object.keys(input).sort()` and
skips null values inside the loop; since JS object keys are unique,
stripping and canonicalizing the pairs and then sorting them by key builds
the same field list.)  Everything else is returned unchanged. -/
def canonOptions : JVal → JVal
  | .arr xs => .arr (List.insertionSort serLe (canonList xs))
  | .obj fs => .obj (List.insertionSort fieldLe (canonFields fs))
  | .null => .null
  | .bool b => .bool b
  | .num n => .num n
  | .str s => .str s

/-- Elementwise canonicalization of an array (`[...input].map(canonOptions)`). -/
def canonList : List JVal → List JVal
  | [] => []
  | x :: xs => canonOptions x :: canonList xs

/-- Strip null-valued fields and canonicalize the remaining values. -/
def canonFields : List (String × JVal) → List (String × JVal)
  | [] => []
  | (k, v) :: fs =>
    if v.isNull then canonFields fs else (k, canonOptions v) :: canonFields fs
end

/-- Source `buildToolKey` (lines 351–353):
`` `${tool}::${canonQuery(query)}::${JSON.stringify(canonOptions(opts))}` ``. -/
def buildToolKey (tool query : String) (opts : JVal) : String :=
  tool ++ "::" ++ canonQuery query ++ "::" ++ jstr (canonOptions opts)

/-- Source `inflightKey` (lines 299–304):
`` `${tool}::${queryStr.trim().toLowerCase()}::${JSON.stringify(opts || {})}` ``
(note: no whitespace collapsing and no option canonicalization here; a
falsy `opts` serializes as `{}`). -/
def inflightKey (tool query : String) (opts : JVal) : String :=
  tool ++ "::" ++ String.mk ((trimChars query.data).map Char.toLower) ++ "::" ++
    jstr (if opts.isNull then .obj [] else opts)

/-! ### Order-theoretic facts about `charListLe` -/

theorem char_eq_of_toNat_eq {a b : Char} (h : a.toNat = b.toNat) : a = b :=
  Char.ext (UInt32.ext h)

theorem charListLe_total : ∀ a b : List Char, charListLe a b = true ∨ charListLe b a = true
  | [], _ => Or.inl rfl
  | _ :: _, [] => Or.inr rfl
  | x :: xs, y :: ys => by
    rcases Nat.lt_trichotomy x.toNat y.toNat with h | h | h
    · left; simp [charListLe, h]
    · rcases charListLe_total xs ys with h' | h' <;>
        [left; right] <;> simp [charListLe, h, h']
    · right; simp [charListLe, h]

theorem charListLe_trans : ∀ {a b c : List Char},
    charListLe a b = true → charListLe b c = true → charListLe a c = true
  | [], _, _, _, _ => rfl
  | _ :: _, [], _, h₁, _ => by simp [charListLe] at h₁
  | _ :: _, _ :: _, [], _, h₂ => by simp [charListLe] at h₂
  | x :: xs, y :: ys, z :: zs, h₁, h₂ => by
    simp only [charListLe] at h₁ h₂ ⊢
    by_cases hxy : x.toNat < y.toNat
    · by_cases hyz : y.toNat < z.toNat
      · rw [if_pos (by omega)]
      · by_cases hzy : z.toNat < y.toNat
        · rw [if_neg hyz, if_pos hzy] at h₂; exact absurd h₂ (by decide)
        · rw [if_pos (by omega)]
    · by_cases hyx : y.toNat < x.toNat
      · rw [if_neg hxy, if_pos hyx] at h₁; exact absurd h₁ (by decide)
      · rw [if_neg hxy, if_neg hyx] at h₁
        by_cases hyz : y.toNat < z.toNat
        · rw [if_pos (by omega : x.toNat < z.toNat)]
        · by_cases hzy : z.toNat < y.toNat
          · rw [if_neg hyz, if_pos hzy] at h₂; exact absurd h₂ (by decide)
          · rw [if_neg hyz, if_neg hzy] at h₂
            rw [if_neg (by omega), if_neg (by omega)]
            exact charListLe_trans h₁ h₂

theorem charListLe_antisymm : ∀ {a b : List Char},
    charListLe a b = true → charListLe b a = true → a = b
  | [], [], _, _ => rfl
  | [], _ :: _, _, h₂ => by simp [charListLe] at h₂
  | _ :: _, [], h₁, _ => by simp [charListLe] at h₁
  | x :: xs, y :: ys, h₁, h₂ => by
    simp only [charListLe] at h₁ h₂
    by_cases hxy : x.toNat < y.toNat
    · rw [if_neg (by omega), if_pos hxy] at h₂
      exact absurd h₂ (by decide)
    · by_cases hyx : y.toNat < x.toNat
      · rw [if_neg hxy, if_pos hyx] at h₁
        exact absurd h₁ (by decide)
      · rw [if_neg hxy, if_neg hyx] at h₁
        rw [if_neg hyx, if_neg hxy] at h₂
        rw [char_eq_of_toNat_eq (by omega : x.toNat = y.toNat),
          charListLe_antisymm h₁ h₂]

instance : IsTotal (String × JVal) fieldLe :=
  ⟨fun a b => charListLe_total a.1.data b.1.data⟩

instance : IsTrans (String × JVal) fieldLe :=
  ⟨fun _ _ _ h₁ h₂ => charListLe_trans h₁ h₂⟩

instance : IsTotal JVal serLe :=
  ⟨fun a b => charListLe_total (jstr a).data (jstr b).data⟩

instance : IsTrans JVal serLe :=
  ⟨fun _ _ _ h₁ h₂ => charListLe_trans h₁ h₂⟩

/-- The order on `String` induced by `charListLe`. -/
def sLe (a b : String) : Prop := strLe a b = true

instance : DecidableRel sLe := fun _ _ =>
  inferInstanceAs (Decidable (_ = true))

instance : IsTotal String sLe := ⟨fun a b => charListLe_total a.data b.data⟩

instance : IsTrans String sLe := ⟨fun _ _ _ h₁ h₂ => charListLe_trans h₁ h₂⟩

instance : IsAntisymm String sLe :=
  ⟨fun _ _ h₁ h₂ => String.ext (charListLe_antisymm h₁ h₂)⟩

/-- Two sorted lists that are permutations of each other are equal, given
antisymmetry of the order on the elements actually present. -/
theorem sorted_perm_eq {α : Type _} {r : α → α → Prop} :
    ∀ {l₁ l₂ : List α}, l₁.Perm l₂ → l₁.Sorted r → l₂.Sorted r →
      (∀ a ∈ l₁, ∀ b ∈ l₁, r a b → r b a → a = b) → l₁ = l₂
  | [], _, hp, _, _, _ => (hp.symm.eq_nil).symm
  | _ :: _, [], hp, _, _, _ => by simpa using hp.eq_nil
  | a :: t₁, b :: t₂, hp, hs₁, hs₂, ha => by
    have hab : a = b := by
      by_cases hab : a = b
      · exact hab
      · have hbl₁ : b ∈ a :: t₁ := hp.mem_iff.mpr (by simp)
        have hal₂ : a ∈ b :: t₂ := hp.mem_iff.mp (by simp)
        have hbt : b ∈ t₁ := by
          rcases hbl₁ with _ | h
          · exact absurd rfl hab
          · assumption
        have hat : a ∈ t₂ := by
          rcases hal₂ with _ | h
          · exact absurd rfl hab
          · assumption
        have hrab : r a b := (List.sorted_cons.mp hs₁).1 b hbt
        have hrba : r b a := (List.sorted_cons.mp hs₂).1 a hat
        exact ha a (by simp) b (by simp [hbt]) hrab hrba
    subst hab
    have hpt : t₁.Perm t₂ := hp.cons_inv
    have hrec : t₁ = t₂ :=
      sorted_perm_eq hpt (List.sorted_cons.mp hs₁).2 (List.sorted_cons.mp hs₂).2
        (fun x hx y hy => ha x (by simp [hx]) y (by simp [hy]))
    rw [hrec]

/-! ### Structure of `canonList` and `canonFields` -/

theorem canonList_eq_map : ∀ l : List JVal, canonList l = l.map canonOptions
  | [] => rfl
  | x :: xs => by rw [canonList, List.map_cons, canonList_eq_map xs]

theorem canonFields_eq_map_filter : ∀ l : List (String × JVal),
    canonFields l =
      (l.filter (fun p => !p.2.isNull)).map (fun p => (p.1, canonOptions p.2))
  | [] => rfl
  | (k, v) :: fs => by
    cases h : v.isNull <;>
      simp [canonFields, List.filter_cons, h, canonFields_eq_map_filter fs]

theorem eq_of_nodup_keys {α β : Type _} :
    ∀ {l : List (α × β)}, (l.map Prod.fst).Nodup →
      ∀ {p q : α × β}, p ∈ l → q ∈ l → p.1 = q.1 → p = q := by
  intro l
  induction l with
  | nil => intro _ p q hp _ _; cases hp
  | cons x xs ih =>
    intro h p q hp hq hk
    have hx : x.1 ∉ xs.map Prod.fst := (List.nodup_cons.mp (by simpa using h)).1
    have hnd : (xs.map Prod.fst).Nodup := (List.nodup_cons.mp (by simpa using h)).2
    rcases List.mem_cons.mp hp with rfl | hp' <;>
      rcases List.mem_cons.mp hq with rfl | hq'
    · rfl
    · exact absurd (hk ▸ List.mem_map_of_mem Prod.fst hq') hx
    · exact absurd (hk ▸ List.mem_map_of_mem Prod.fst hp') hx
    · exact ih hnd hp' hq' hk

/-- Keys of the canonicalized field list are a sub-collection of the input
keys, hence inherit `Nodup`. -/
theorem canonFields_keys_nodup {l : List (String × JVal)}
    (h : (l.map Prod.fst).Nodup) : ((canonFields l).map Prod.fst).Nodup := by
  rw [canonFields_eq_map_filter, List.map_map]
  have : (Prod.fst ∘ fun p : String × JVal => (p.1, canonOptions p.2)) = Prod.fst := by
    funext p; rfl
  rw [this]
  exact List.Nodup.sublist ((List.filter_sublist l).map Prod.fst) h

/-- Core of claim C6: the canonicalized object is insensitive to field
order and to null-valued fields. -/
theorem canonObj_eq_of_filter_perm {l₁ l₂ : List (String × JVal)}
    (hnd : (l₁.map Prod.fst).Nodup)
    (hperm : (l₁.filter (fun p => !p.2.isNull)).Perm
      (l₂.filter (fun p => !p.2.isNull))) :
    canonOptions (.obj l₁) = canonOptions (.obj l₂) := by
  have hcf : (canonFields l₁).Perm (canonFields l₂) := by
    rw [canonFields_eq_map_filter, canonFields_eq_map_filter]
    exact hperm.map _
  have hp : (List.insertionSort fieldLe (canonFields l₁)).Perm
      (List.insertionSort fieldLe (canonFields l₂)) :=
    (List.perm_insertionSort _ _).trans
      (hcf.trans (List.perm_insertionSort _ _).symm)
  have hndk : ((List.insertionSort fieldLe (canonFields l₁)).map Prod.fst).Nodup :=
    ((List.perm_insertionSort fieldLe (canonFields l₁)).map Prod.fst).nodup_iff.mpr
      (canonFields_keys_nodup hnd)
  have heq := sorted_perm_eq hp
    (List.sorted_insertionSort fieldLe (canonFields l₁))
    (List.sorted_insertionSort fieldLe (canonFields l₂))
    (fun a ha b hb r1 r2 =>
      eq_of_nodup_keys hndk ha hb (String.ext (charListLe_antisymm r1 r2)))
  simp only [canonOptions]
  rw [heq]

/-! ### The canonical shape predicate (for the second half of C6):
null-stripped, key-sorted at every nesting depth -/

/-- Adjacent-pairs check that object fields are in sorted key order. -/
def keysSortedChain : List (String × JVal) → Bool
  | [] => true
  | [_] => true
  | a :: b :: t => charListLe a.1.data b.1.data && keysSortedChain (b :: t)

mutual
/-- A value is in canonical shape when at every nesting depth its objects
hold no null-valued fields and list their keys in sorted order. -/
def isCanon : JVal → Bool
  | .arr xs => isCanonList xs
  | .obj fs => keysSortedChain fs && isCanonFields fs
  | _ => true

def isCanonList : List JVal → Bool
  | [] => true
  | x :: xs => isCanon x && isCanonList xs

def isCanonFields : List (String × JVal) → Bool
  | [] => true
  | (_, v) :: fs => !v.isNull && isCanon v && isCanonFields fs
end

theorem isCanonList_iff : ∀ {l : List JVal},
    isCanonList l = true ↔ ∀ x ∈ l, isCanon x = true := by
  intro l
  induction l with
  | nil => simp [isCanonList]
  | cons x xs ih => simp [isCanonList, ih]

theorem isCanonFields_iff : ∀ {l : List (String × JVal)},
    isCanonFields l = true ↔ ∀ p ∈ l, p.2.isNull = false ∧ isCanon p.2 = true := by
  intro l
  induction l with
  | nil => simp [isCanonFields]
  | cons p ps ih =>
    obtain ⟨k, v⟩ := p
    simp [isCanonFields, ih, and_assoc]

theorem keysSortedChain_of_sorted : ∀ {l : List (String × JVal)},
    l.Sorted fieldLe → keysSortedChain l = true
  | [], _ => rfl
  | [_], _ => rfl
  | a :: b :: t, h => by
    have h1 := List.sorted_cons.mp h
    simp only [keysSortedChain, Bool.and_eq_true]
    exact ⟨h1.1 b (by simp), keysSortedChain_of_sorted h1.2⟩

theorem canonOptions_isNull : ∀ v : JVal, (canonOptions v).isNull = v.isNull
  | .null => rfl
  | .bool _ => rfl
  | .num _ => rfl
  | .str _ => rfl
  | .arr _ => rfl
  | .obj _ => rfl

mutual
theorem canonOptions_isCanon : ∀ v : JVal, isCanon (canonOptions v) = true
  | .null => rfl
  | .bool _ => rfl
  | .num _ => rfl
  | .str _ => rfl
  | .arr xs => by
    simp only [canonOptions, isCanon]
    rw [isCanonList_iff]
    intro x hx
    exact isCanonList_iff.mp (canonList_isCanon xs) x
      ((List.perm_insertionSort serLe (canonList xs)).mem_iff.mp hx)
  | .obj fs => by
    simp only [canonOptions, isCanon, Bool.and_eq_true]
    refine ⟨keysSortedChain_of_sorted
      (List.sorted_insertionSort fieldLe (canonFields fs)), ?_⟩
    rw [isCanonFields_iff]
    intro p hp
    exact isCanonFields_iff.mp (canonFields_isCanon fs) p
      ((List.perm_insertionSort fieldLe (canonFields fs)).mem_iff.mp hp)

theorem canonList_isCanon : ∀ l : List JVal, isCanonList (canonList l) = true
  | [] => rfl
  | x :: xs => by
    simp only [canonList, isCanonList, Bool.and_eq_true]
    exact ⟨canonOptions_isCanon x, canonList_isCanon xs⟩

theorem canonFields_isCanon :
    ∀ l : List (String × JVal), isCanonFields (canonFields l) = true
  | [] => rfl
  | (k, v) :: fs => by
    cases h : v.isNull with
    | true => simpa [canonFields, h] using canonFields_isCanon fs
    | false =>
      simp only [canonFields, h, Bool.false_eq_true, if_false, isCanonFields,
        Bool.and_eq_true, Bool.not_eq_true']
      exact ⟨⟨(canonOptions_isNull v).trans h, canonOptions_isCanon v⟩,
        canonFields_isCanon fs⟩
end

/-- C6: the canonical key is insensitive to object key order and to
null/undefined-valued keys (modelled as `JVal.null`): whenever the two
option objects agree up to field order once null-valued fields are
stripped, `buildToolKey` (via `canonOptions`) produces the identical key
string; moreover every value produced by `canonOptions` has, at every
nesting depth, its null-valued object fields stripped and its remaining
object keys in lexicographically sorted order. -/
theorem buildToolKey_key_order_null_insensitive :
    (∀ (tool query : String) (l₁ l₂ : List (String × JVal)),
        (l₁.map Prod.fst).Nodup →
        (l₁.filter (fun p => !p.2.isNull)).Perm
          (l₂.filter (fun p => !p.2.isNull)) →
        buildToolKey tool query (.obj l₁) = buildToolKey tool query (.obj l₂)) ∧
    (∀ v : JVal, isCanon (canonOptions v) = true) := by
  refine ⟨fun tool query l₁ l₂ hnd hperm => ?_, canonOptions_isCanon⟩
  unfold buildToolKey
  rw [canonObj_eq_of_filter_perm hnd hperm]

/-- Witness for C6 at concrete inputs: reordered keys plus a null-valued
key on one side produce the identical key string, and a concrete nested
value canonicalizes to canonical shape. -/
theorem buildToolKey_key_order_null_insensitive_witness :
    buildToolKey "webSearch" "GDP growth"
        (.obj [("b", .num 5), ("a", .null), ("c", .str "x")]) =
      buildToolKey "webSearch" "GDP growth"
        (.obj [("c", .str "x"), ("b", .num 5)]) ∧
    isCanon (canonOptions
      (.obj [("b", .obj [("z", .num 1), ("y", .null)]),
             ("a", .arr [.num 2, .num 10])])) = true := by
  have h := buildToolKey_key_order_null_insensitive
  refine ⟨h.1 _ _ _ _ (by decide) ?_, h.2 _⟩
  have e₁ : List.filter (fun p : String × JVal => !p.2.isNull)
      [("b", .num 5), ("a", .null), ("c", .str "x")] =
      [("b", .num 5), ("c", .str "x")] := rfl
  have e₂ : List.filter (fun p : String × JVal => !p.2.isNull)
      [("c", .str "x"), ("b", .num 5)] =
      [("c", .str "x"), ("b", .num 5)] := rfl
  rw [e₁, e₂]
  exact List.Perm.swap _ _ _

/-! ### C7: array order insensitivity of the canonical key -/

/-- Fields agreeing in key and in the serialized form of their values. -/
def FEq (p q : String × JVal) : Prop := p.1 = q.1 ∧ jstr p.2 = jstr q.2

theorem forall₂_FEq_refl : ∀ l, List.Forall₂ FEq l l
  | [] => List.Forall₂.nil
  | _ :: xs => List.Forall₂.cons ⟨rfl, rfl⟩ (forall₂_FEq_refl xs)

theorem forall₂_FEq_append {l₁ l₂ l₃ l₄ : List (String × JVal)}
    (h₁ : List.Forall₂ FEq l₁ l₃) (h₂ : List.Forall₂ FEq l₂ l₄) :
    List.Forall₂ FEq (l₁ ++ l₂) (l₃ ++ l₄) := by
  induction h₁ with
  | nil => exact h₂
  | cons h _ ih => exact List.Forall₂.cons h ih

/-- `orderedInsert` by key treats `FEq`-related inputs identically: the
comparator only ever reads keys, which agree. -/
theorem orderedInsert_FEq : ∀ {l₁ l₂ : List (String × JVal)},
    List.Forall₂ FEq l₁ l₂ → ∀ {p q}, FEq p q →
    List.Forall₂ FEq (List.orderedInsert fieldLe p l₁)
      (List.orderedInsert fieldLe q l₂) := by
  intro l₁ l₂ h
  induction h with
  | nil => exact fun hpq => List.Forall₂.cons hpq List.Forall₂.nil
  | @cons a b t₁ t₂ hab ht ih =>
    intro p q hpq
    simp only [List.orderedInsert]
    have hcond : fieldLe p a ↔ fieldLe q b := by
      unfold fieldLe; rw [hpq.1, hab.1]
    by_cases hc : fieldLe p a
    · rw [if_pos hc, if_pos (hcond.mp hc)]
      exact .cons hpq (.cons hab ht)
    · rw [if_neg hc, if_neg (fun hh => hc (hcond.mpr hh))]
      exact .cons hab (ih hpq)

theorem insertionSort_FEq {l₁ l₂ : List (String × JVal)}
    (h : List.Forall₂ FEq l₁ l₂) :
    List.Forall₂ FEq (List.insertionSort fieldLe l₁)
      (List.insertionSort fieldLe l₂) := by
  induction h with
  | nil => exact .nil
  | cons hab _ ih =>
    simp only [List.insertionSort]
    exact orderedInsert_FEq ih hab

theorem jstrFields_congr {l₁ l₂ : List (String × JVal)}
    (h : List.Forall₂ FEq l₁ l₂) : jstrFields l₁ = jstrFields l₂ := by
  induction h with
  | nil => rfl
  | @cons a b t₁ t₂ hab ht ih =>
    obtain ⟨k₁, v₁⟩ := a
    obtain ⟨k₂, v₂⟩ := b
    obtain ⟨hk, hv⟩ := hab
    simp only at hk hv
    cases ht with
    | nil => simp only [jstrFields, hk, hv]
    | cons hcd htt =>
      simp only [jstrFields, hk, hv]
      rw [ih]

theorem jstrList_congr : ∀ {l₁ l₂ : List JVal},
    l₁.map jstr = l₂.map jstr → jstrList l₁ = jstrList l₂ := by
  intro l₁
  induction l₁ with
  | nil =>
    intro l₂ h
    cases l₂ with
    | nil => rfl
    | cons y ys => simp at h
  | cons x xs ih =>
    intro l₂ h
    cases l₂ with
    | nil => simp at h
    | cons y ys =>
      simp only [List.map_cons, List.cons.injEq] at h
      obtain ⟨hxy, hlist⟩ := h
      cases xs with
      | nil =>
        cases ys with
        | nil => simpa [jstrList] using hxy
        | cons z zs => simp at hlist
      | cons x' xs' =>
        cases ys with
        | nil => simp at hlist
        | cons y' ys' =>
          simp only [jstrList]
          rw [hxy, ih hlist]

/-- The serialized forms of a sorted canonical array are determined by the
multiset of elements: sorting is by serialized form, an antisymmetric
order on strings. -/
theorem map_jstr_insertionSort_eq {l₁ l₂ : List JVal} (h : l₁.Perm l₂) :
    (List.insertionSort serLe l₁).map jstr =
      (List.insertionSort serLe l₂).map jstr := by
  apply List.eq_of_perm_of_sorted (r := sLe)
  · exact ((List.perm_insertionSort serLe l₁).trans
      (h.trans (List.perm_insertionSort serLe l₂).symm)).map jstr
  · exact List.Pairwise.map jstr (fun _ _ hab => hab)
      (List.sorted_insertionSort serLe l₁)
  · exact List.Pairwise.map jstr (fun _ _ hab => hab)
      (List.sorted_insertionSort serLe l₂)

theorem jstr_canonArr_perm {xs ys : List JVal} (h : xs.Perm ys) :
    jstr (canonOptions (.arr xs)) = jstr (canonOptions (.arr ys)) := by
  have hc : (canonList xs).Perm (canonList ys) := by
    rw [canonList_eq_map xs, canonList_eq_map ys]
    exact h.map canonOptions
  simp only [canonOptions, jstr]
  rw [jstrList_congr (map_jstr_insertionSort_eq hc)]

theorem canonFields_append (a b : List (String × JVal)) :
    canonFields (a ++ b) = canonFields a ++ canonFields b := by
  rw [canonFields_eq_map_filter, canonFields_eq_map_filter,
    canonFields_eq_map_filter, List.filter_append, List.map_append]

/-- C7: a pair of option objects differing only in the order of one
array-valued field's elements produce the identical canonical key string:
arrays are canonicalized elementwise and then sorted by the serialized
form of each element. -/
theorem buildToolKey_array_order_insensitive :
    ∀ (tool query : String) (pre post : List (String × JVal)) (k : String)
      (xs ys : List JVal), xs.Perm ys →
      buildToolKey tool query (.obj (pre ++ (k, .arr xs) :: post)) =
        buildToolKey tool query (.obj (pre ++ (k, .arr ys) :: post)) := by
  intro tool query pre post k xs ys hperm
  have hfields : List.Forall₂ FEq (canonFields (pre ++ (k, .arr xs) :: post))
      (canonFields (pre ++ (k, .arr ys) :: post)) := by
    rw [canonFields_append, canonFields_append]
    refine forall₂_FEq_append (forall₂_FEq_refl _) ?_
    simp only [canonFields, JVal.isNull, Bool.false_eq_true, if_false]
    exact .cons ⟨rfl, jstr_canonArr_perm hperm⟩ (forall₂_FEq_refl _)
  have hkey : jstr (canonOptions (.obj (pre ++ (k, .arr xs) :: post))) =
      jstr (canonOptions (.obj (pre ++ (k, .arr ys) :: post))) := by
    simp only [canonOptions, jstr]
    rw [jstrFields_congr (insertionSort_FEq hfields)]
  unfold buildToolKey
  rw [hkey]

/-- Witness for C7 at concrete inputs: reordering the `includedSources`
array leaves the key string unchanged. -/
theorem buildToolKey_array_order_insensitive_witness :
    buildToolKey "webSearch" "GDP"
        (.obj [("maxNumResults", .num 5),
               ("includedSources", .arr [.str "fred", .str "imf"])]) =
      buildToolKey "webSearch" "GDP"
        (.obj [("maxNumResults", .num 5),
               ("includedSources", .arr [.str "imf", .str "fred"])]) :=
  buildToolKey_array_order_insensitive "webSearch" "GDP"
    [("maxNumResults", .num 5)] [] "includedSources"
    [.str "fred", .str "imf"] [.str "imf", .str "fred"]
    (List.Perm.swap _ _ _)

/-! ### `callValyuWithTimeout` (source lines 245–295) -/

/-- Retryable-error classification (source lines 275–280): the message
contains one of the transient-network substrings. -/
def isRetryableError (msg : String) : Bool :=
  strContains msg "timeout" || strContains msg "ECONNRESET" ||
    strContains msg "ENOTFOUND" || strContains msg "ETIMEDOUT"

/-- The retry loop of `callValyuWithTimeout`, starting at a given attempt
index.  `search attempt` abstracts the settled outcome of attempt number
`attempt` — the `Promise.race` of `valyu.search` against the timeout
timer (a timer rejection's message, `Request timeout after ...ms`,
contains the retryable substring `timeout`).  Returns the final outcome,
the total number of invocations of the underlying call, and the list of
backoff delays (in ms, source line 283: `Math.pow(2, attempt) * 1000`)
awaited between attempts.  The source's trailing `throw lastError` after
the loop is unreachable (the loop body always returns, continues with
`attempt < maxRetries`, or throws) and has no counterpart here. -/
def callValyuWithTimeoutAux {R : Type _} (search : Nat → Except String R)
    (maxRetries : Nat) (attempt : Nat) : Except String R × Nat × List Nat :=
  match search attempt with
  | .ok r => (.ok r, 1, [])
  | .error e =>
    if h : isRetryableError e = true ∧ attempt < maxRetries then
      let rest := callValyuWithTimeoutAux search maxRetries (attempt + 1)
      (rest.1, rest.2.1 + 1, (2 ^ attempt * 1000) :: rest.2.2)
    else (.error e, 1, [])
termination_by maxRetries + 1 - attempt
decreasing_by omega

/-- Source `callValyuWithTimeout`: run the retry loop from attempt 0. -/
def callValyuWithTimeout {R : Type _} (search : Nat → Except String R)
    (maxRetries : Nat) : Except String R × Nat × List Nat :=
  callValyuWithTimeoutAux search maxRetries 0

/-- C4: a call that always rejects with an `ETIMEDOUT` error, run with
`maxRetries = 2`, invokes the underlying call exactly 3 times, waits
`2^attempt` seconds between attempts (1s before the 2nd, 2s before the
3rd), and propagates the last observed error. -/
theorem callValyuWithTimeout_etimedout_three_attempts {R : Type _}
    (msgs : Nat → String)
    (h : ∀ n, strContains (msgs n) "ETIMEDOUT" = true) :
    callValyuWithTimeout (R := R) (fun n => .error (msgs n)) 2 =
      (.error (msgs 2), 3, [1000, 2000]) := by
  have hr : ∀ n, isRetryableError (msgs n) = true := by
    intro n
    unfold isRetryableError
    rw [h n]
    simp
  rw [callValyuWithTimeout, callValyuWithTimeoutAux]
  simp only
  rw [dif_pos ⟨hr 0, by omega⟩, callValyuWithTimeoutAux]
  simp only
  rw [dif_pos ⟨hr 1, by omega⟩, callValyuWithTimeoutAux]
  simp only
  rw [dif_neg (fun hc => by omega)]
  norm_num

/-- Witness for C4: the constant `"ETIMEDOUT"` rejection. -/
theorem callValyuWithTimeout_etimedout_three_attempts_witness :
    callValyuWithTimeout (R := Unit) (fun _ => .error "ETIMEDOUT") 2 =
      (.error "ETIMEDOUT", 3, [1000, 2000]) :=
  callValyuWithTimeout_etimedout_three_attempts (fun _ => "ETIMEDOUT")
    (fun _ => rfl)

/-- C5: a call rejecting with a non-retryable error — the message contains
none of `timeout`, `ECONNRESET`, `ENOTFOUND`, `ETIMEDOUT` — is invoked
exactly once, with no backoff delay, and the original error propagates
unchanged, whatever the retry budget. -/
theorem callValyuWithTimeout_nonretryable_single_attempt {R : Type _}
    (maxRetries : Nat) (msg : String)
    (h1 : strContains msg "timeout" = false)
    (h2 : strContains msg "ECONNRESET" = false)
    (h3 : strContains msg "ENOTFOUND" = false)
    (h4 : strContains msg "ETIMEDOUT" = false) :
    callValyuWithTimeout (R := R) (fun _ => .error msg) maxRetries =
      (.error msg, 1, []) := by
  have hr : isRetryableError msg = false := by
    unfold isRetryableError
    rw [h1, h2, h3, h4]
    rfl
  rw [callValyuWithTimeout, callValyuWithTimeoutAux]
  simp only
  rw [dif_neg (fun hc => by rw [hr] at hc; exact absurd hc.1 (by decide))]

/-- Witness for C5: a `401 unauthorized` authentication error. -/
theorem callValyuWithTimeout_nonretryable_single_attempt_witness :
    callValyuWithTimeout (R := Unit) (fun _ => .error "401 unauthorized") 2 =
      (.error "401 unauthorized", 1, []) :=
  callValyuWithTimeout_nonretryable_single_attempt 2 "401 unauthorized"
    (by decide) (by decide) (by decide) (by decide)

/-! ### JS `Map` as an insertion-ordered association list -/

/-- `Map.prototype.get` / `has`: first (and in JS only) binding of a key. -/
def mapLookup {V : Type _} : List (String × V) → String → Option V
  | [], _ => none
  | (k', v) :: t, k => if k' = k then some v else mapLookup t k

/-- `Map.prototype.set`: update an existing key in place (JS preserves its
insertion position), else append at the end. -/
def mapSet {V : Type _} : List (String × V) → String → V → List (String × V)
  | [], k, v => [(k, v)]
  | (k', v') :: t, k, v =>
    if k' = k then (k, v) :: t else (k', v') :: mapSet t k v

/-- `Map.prototype.delete`. -/
def mapDelete {V : Type _} : List (String × V) → String → List (String × V)
  | [], _ => []
  | (k', v') :: t, k => if k' = k then t else (k', v') :: mapDelete t k

theorem mapSet_of_not_mem {V : Type _} :
    ∀ {m : List (String × V)} {k : String} {v : V},
      mapLookup m k = none → mapSet m k v = m ++ [(k, v)]
  | [], _, _, _ => rfl
  | (k', v') :: t, k, v, h => by
    by_cases hk : k' = k
    · simp [mapLookup, hk] at h
    · simp only [mapLookup, if_neg hk] at h
      simp only [mapSet, if_neg hk, List.cons_append, List.cons.injEq, true_and]
      exact mapSet_of_not_mem h

theorem mapLookup_mapSet_self {V : Type _} :
    ∀ (m : List (String × V)) (k : String) (v : V),
      mapLookup (mapSet m k v) k = some v
  | [], k, _ => by simp [mapSet, mapLookup]
  | (k', v') :: t, k, v => by
    by_cases hk : k' = k
    · simp [mapSet, mapLookup, hk]
    · simp only [mapSet, if_neg hk, mapLookup, if_neg hk]
      exact mapLookup_mapSet_self t k v

theorem mem_mapDelete {V : Type _} :
    ∀ {m : List (String × V)} {k : String} {p : String × V},
      p ∈ mapDelete m k → p ∈ m
  | [], _, _, h => h
  | (k', v') :: t, k, p, h => by
    by_cases hk : k' = k
    · simp only [mapDelete, if_pos hk] at h
      exact List.mem_cons_of_mem _ h
    · simp only [mapDelete, if_neg hk] at h
      rcases List.mem_cons.mp h with rfl | h'
      · exact List.mem_cons_self _ _
      · exact List.mem_cons_of_mem _ (mem_mapDelete h')

/-! ### `withSessionMemo` (source lines 614–638) -/

def SESSION_MEMO_MAX_KEYS : Nat := 200

/-- The insert-with-eviction step of `withSessionMemo` (source lines
631–636), run after a fresh value was computed: at or above capacity, the
first (oldest-inserted) key `firstKey` is read and deleted — but only
when truthy (`if (firstKey) bag.delete(firstKey)`): an empty-string
oldest key is falsy and is NOT evicted — then the new entry is set. -/
def memoInsert {V : Type _} (bag : List (String × V)) (key : String)
    (value : V) : List (String × V) :=
  let bag₁ :=
    if SESSION_MEMO_MAX_KEYS ≤ bag.length then
      match bag.head? with
      | some (firstKey, _) =>
        if firstKey = "" then bag else mapDelete bag firstKey
      | none => bag
    else bag
  mapSet bag₁ key value

/-- One call of `withSessionMemo` (source lines 618–638).  The settled
outcome of `run` is abstracted as an `Except`; the returned `Bool`
records whether `run` was invoked.  A falsy `sessionId` (absent or the
empty string) bypasses the memo entirely.  On a fresh session the (still
empty) inner map is registered in the outer map before `run` is awaited
(`memoBySession.set(sessionId, bag)`, line 627), so a failing `run` can
leave behind an empty session map but never an entry for `key`. -/
def withSessionMemo {V E : Type _}
    (state : List (String × List (String × V)))
    (sessionId : Option String) (key : String) (run : Except E V) :
    Except E V × List (String × List (String × V)) × Bool :=
  match sessionId with
  | none => (run, state, true)
  | some sid =>
    if sid = "" then (run, state, true)
    else
      let bagState :=
        match mapLookup state sid with
        | some b => (b, state)
        | none => ([], mapSet state sid [])
      let bag := bagState.1
      let state₁ := bagState.2
      match mapLookup bag key with
      | some v => (.ok v, state₁, false)
      | none =>
        match run with
        | .error e => (.error e, state₁, true)
        | .ok v => (.ok v, mapSet state₁ sid (memoInsert bag key v), true)

/-! ### C2/C3: session memo properties -/

/-- The memo built by inserting the empty-string key first and then 200
further distinct keys through `withSessionMemo` in one session: the
201st insertion finds the falsy oldest key `""`, skips eviction, and the
inner map grows to 201 entries. -/
def c2CexState : List (String × List (String × Nat)) :=
  (List.range 200).foldl
    (fun st i =>
      (withSessionMemo (E := Unit) st (some "s") (toString i) (.ok 0)).2.1)
    (withSessionMemo (V := Nat) (E := Unit) [] (some "s") "" (.ok 0)).2.1

set_option maxRecDepth 40000 in
/-- Counterexample to C2 as stated: a session memo reachable through
`withSessionMemo` alone (201 successful inserts of distinct keys, the
empty-string key first) holds 201 entries, exceeding the 200-entry cap,
because `if (firstKey) bag.delete(firstKey)` skips eviction when the
oldest key is the falsy empty string. -/
theorem sessionMemo_exceeds_cap_with_empty_key :
    ((mapLookup c2CexState "s").getD []).length = 201 := by decide

theorem mapLookup_cons_none {V : Type _} {k₀ : String} {v₀ : V}
    {t : List (String × V)} {key : String}
    (h : mapLookup ((k₀, v₀) :: t) key = none) :
    k₀ ≠ key ∧ mapLookup t key = none := by
  by_cases hk : k₀ = key
  · simp [mapLookup, hk] at h
  · exact ⟨hk, by simpa [mapLookup, hk] using h⟩

/-- Capacity and key-nonemptiness are preserved by one memo insertion,
provided every key ever inserted is a non-empty string. -/
theorem memoInsert_inv {V : Type _} {bag : List (String × V)} {key : String}
    {v : V} (hne : ∀ p ∈ bag, p.1 ≠ "") (hkey : key ≠ "")
    (hlen : bag.length ≤ SESSION_MEMO_MAX_KEYS)
    (hmiss : mapLookup bag key = none) :
    (memoInsert bag key v).length ≤ SESSION_MEMO_MAX_KEYS ∧
      ∀ p ∈ memoInsert bag key v, p.1 ≠ "" := by
  unfold memoInsert
  by_cases hcap : SESSION_MEMO_MAX_KEYS ≤ bag.length
  · have hlen200 : bag.length = SESSION_MEMO_MAX_KEYS := le_antisymm hlen hcap
    cases bag with
    | nil => simp [SESSION_MEMO_MAX_KEYS] at hlen200
    | cons p₀ t =>
      obtain ⟨k₀, v₀⟩ := p₀
      have hk₀ : k₀ ≠ "" := hne (k₀, v₀) (by simp)
      obtain ⟨-, hmiss'⟩ := mapLookup_cons_none hmiss
      have hdel : mapDelete ((k₀, v₀) :: t) k₀ = t := by simp [mapDelete]
      simp only [if_pos hcap, List.head?, if_neg hk₀, hdel,
        mapSet_of_not_mem hmiss']
      refine ⟨?_, ?_⟩
      · simp only [List.length_cons] at hlen200
        simp only [List.length_append, List.length_cons, List.length_nil]
        omega
      · intro p hp
        rcases List.mem_append.mp hp with h | h
        · exact hne p (List.mem_cons_of_mem _ h)
        · simp only [List.mem_singleton] at h
          rw [h]
          exact hkey
  · simp only [if_neg hcap, mapSet_of_not_mem hmiss]
    refine ⟨?_, ?_⟩
    · simp only [List.length_append, List.length_singleton]
      omega
    · intro p hp
      rcases List.mem_append.mp hp with h | h
      · exact hne p h
      · simp only [List.mem_singleton] at h
        rw [h]
        exact hkey

/-- FIFO eviction: inserting a fresh key into a memo holding exactly 200
entries whose oldest key is truthy removes exactly the oldest entry and
appends the new entry, reordering nothing. -/
theorem memoInsert_fifo {V : Type _} {k₀ : String} {v₀ : V}
    {t : List (String × V)} {key : String} {v : V}
    (hlen : ((k₀, v₀) :: t).length = SESSION_MEMO_MAX_KEYS) (hk₀ : k₀ ≠ "")
    (hmiss : mapLookup ((k₀, v₀) :: t) key = none) :
    memoInsert ((k₀, v₀) :: t) key v = t ++ [(key, v)] := by
  obtain ⟨-, hmiss'⟩ := mapLookup_cons_none hmiss
  have hdel : mapDelete ((k₀, v₀) :: t) k₀ = t := by simp [mapDelete]
  unfold memoInsert
  simp only [if_pos (le_of_eq hlen.symm), List.head?, if_neg hk₀, hdel]
  exact mapSet_of_not_mem hmiss'

/-- C2 (amended): provided every memo key is a non-empty string — as holds
for the keys the tools build via `buildToolKey`, which always contain
`::` — the session memo never exceeds 200 entries; inserting a fresh key
into a memo of exactly 200 entries evicts exactly the first-inserted
entry, keeping all others in order and appending the new entry; and a
cache hit returns the stored value without invoking `run` and without
modifying any state (reads do not refresh insertion order). -/
theorem sessionMemo_bounded_fifo :
    (∀ (V : Type) (bag : List (String × V)) (key : String) (v : V),
        (∀ p ∈ bag, p.1 ≠ "") → key ≠ "" →
        bag.length ≤ SESSION_MEMO_MAX_KEYS → mapLookup bag key = none →
        (memoInsert bag key v).length ≤ SESSION_MEMO_MAX_KEYS ∧
          ∀ p ∈ memoInsert bag key v, p.1 ≠ "") ∧
    (∀ (V : Type) (k₀ : String) (v₀ : V) (t : List (String × V))
        (key : String) (v : V),
        ((k₀, v₀) :: t).length = SESSION_MEMO_MAX_KEYS → k₀ ≠ "" →
        mapLookup ((k₀, v₀) :: t) key = none →
        memoInsert ((k₀, v₀) :: t) key v = t ++ [(key, v)]) ∧
    (∀ (V E : Type) (state : List (String × List (String × V)))
        (sid key : String) (run : Except E V) (bag : List (String × V))
        (v : V), sid ≠ "" → mapLookup state sid = some bag →
        mapLookup bag key = some v →
        withSessionMemo state (some sid) key run = (.ok v, state, false)) := by
  refine ⟨fun V bag key v h1 h2 h3 h4 => memoInsert_inv h1 h2 h3 h4,
    fun V k₀ v₀ t key v h1 h2 h3 => memoInsert_fifo h1 h2 h3,
    fun V E state sid key run bag v hsid hbag hhit => ?_⟩
  simp [withSessionMemo, hsid, hbag, hhit]

/-- A 200-entry bag with truthy keys, for the C2 witness. -/
def c2FullBag : List (String × Nat) :=
  (List.range 200).map (fun i => ("k" ++ toString i, 0))

set_option maxRecDepth 40000 in
/-- Witness for the amended C2 at concrete inputs. -/
theorem sessionMemo_bounded_fifo_witness :
    ((memoInsert c2FullBag "fresh" 7).length ≤ SESSION_MEMO_MAX_KEYS ∧
      ∀ p ∈ memoInsert c2FullBag "fresh" 7, p.1 ≠ "") ∧
    memoInsert c2FullBag "fresh" 7 = c2FullBag.tail ++ [("fresh", 7)] ∧
    withSessionMemo (E := Unit) [("s", [("k", 3)])] (some "s") "k" (.ok 9) =
      (.ok 3, [("s", [("k", 3)])], false) := by
  have h := sessionMemo_bounded_fifo
  refine ⟨h.1 Nat c2FullBag "fresh" 7 ?_ (by decide) (by decide) (by decide),
    ?_, h.2.2 Nat Unit [("s", [("k", 3)])] "s" "k" (.ok 9) [("k", 3)] 3
      (by decide) (by decide) (by decide)⟩
  · intro p hp
    have : ∀ q ∈ c2FullBag, q.1 ≠ "" := by decide
    exact this p hp
  · have e : c2FullBag = ("k0", 0) :: c2FullBag.tail := by decide
    rw [e]
    exact h.2.1 Nat "k0" 0 c2FullBag.tail "fresh" 7 (by decide) (by decide)
      (by decide)

/-- C3: a rejecting `run` is never cached — the error propagates, no entry
for the key is added (at most an empty session map is created), and a
second sequential call with the same session and key invokes `run`
again, propagating its (possibly different) error. -/
theorem withSessionMemo_error_not_cached {V E : Type _}
    (state : List (String × List (String × V))) (sid key : String)
    (e e' : E) (hsid : sid ≠ "")
    (hmiss : mapLookup ((mapLookup state sid).getD []) key = none) :
    (withSessionMemo (V := V) state (some sid) key (.error e)).1 = .error e ∧
    (withSessionMemo (V := V) state (some sid) key (.error e)).2.2 = true ∧
    mapLookup ((mapLookup
      (withSessionMemo (V := V) state (some sid) key (.error e)).2.1
        sid).getD []) key = none ∧
    (withSessionMemo
      (withSessionMemo (V := V) state (some sid) key (.error e)).2.1
      (some sid) key (.error e')).1 = .error e' ∧
    (withSessionMemo
      (withSessionMemo (V := V) state (some sid) key (.error e)).2.1
      (some sid) key (.error e')).2.2 = true := by
  cases hb : mapLookup state sid with
  | some bag =>
    have hm : mapLookup bag key = none := by simpa [hb] using hmiss
    simp [withSessionMemo, hsid, hb, hm]
  | none =>
    have hset : mapLookup (mapSet state sid ([] : List (String × V))) sid =
        some [] := mapLookup_mapSet_self state sid []
    simp [withSessionMemo, hsid, hb, hset, mapLookup]

/-- Witness for C3 at concrete inputs. -/
theorem withSessionMemo_error_not_cached_witness :
    (withSessionMemo (V := Nat) [] (some "chat1") "k" (.error "boom")).1 =
        .error "boom" ∧
    (withSessionMemo (V := Nat) [] (some "chat1") "k" (.error "boom")).2.2 =
        true ∧
    mapLookup ((mapLookup
      (withSessionMemo (V := Nat) [] (some "chat1") "k"
        (.error "boom")).2.1 "chat1").getD []) "k" = none ∧
    (withSessionMemo
      (withSessionMemo (V := Nat) [] (some "chat1") "k" (.error "boom")).2.1
      (some "chat1") "k" (.error "boom2")).1 = .error "boom2" ∧
    (withSessionMemo
      (withSessionMemo (V := Nat) [] (some "chat1") "k" (.error "boom")).2.1
      (some "chat1") "k" (.error "boom2")).2.2 = true :=
  withSessionMemo_error_not_cached [] "chat1" "k" "boom" "boom2"
    (by decide) (by decide)

/-! ### `once` — the in-flight coalescer (source lines 297–323)

The JS event loop runs each synchronous block atomically.  In `once`, the
whole body from the `inflight.has(key)` check through `inflight.set(key,
p)` is synchronous (creating the async closure `p` starts `run()` up to
its first suspension point, still inside the same block), so no other
logical task can interleave with check-then-register: it is one atomic
step.  The `finally { inflight.delete(key) }` executes when `run`'s
promise settles, in the same continuation that settles the shared
promise `p`: a second atomic step.  The model is an event-step machine
over these two atomic steps, with promises named by numeric ids. -/

/-- Lookup in a `Nat`-keyed log (most recent binding first). -/
def lookupBy {A : Type _} : List (Nat × A) → Nat → Option A
  | [], _ => none
  | (k', v) :: t, k => if k' = k then some v else lookupBy t k

/-- Number of registry bindings carrying a given key. -/
def keyCount {V : Type _} (m : List (String × V)) (key : String) : Nat :=
  (m.filter (fun p => p.1 == key)).length

structure OnceState (O : Type _) where
  /-- the `inflight` map: coalescing key to the registered promise id -/
  inflight : List (String × Nat)
  /-- next fresh promise id -/
  nextId : Nat
  /-- log of the keys whose `run` has been started -/
  runs : List String
  /-- which promise each caller of `once` received -/
  callerFut : List (Nat × Nat)
  /-- settled promises and their outcomes -/
  settled : List (Nat × O)

inductive OnceEvent (O : Type _) where
  | call (tool query : String) (opts : JVal) (caller : Nat)
  | settle (key : String) (outcome : O)

/-- Atomic step 1 — a call to `once` (source lines 306–322): compute the
key, return the registered promise on a hit; otherwise start `run`,
allocate a fresh promise and register it under the key. -/
def onceCall {O : Type _} (s : OnceState O) (tool query : String)
    (opts : JVal) (caller : Nat) : OnceState O :=
  let key := inflightKey tool query opts
  match mapLookup s.inflight key with
  | some p => { s with callerFut := (caller, p) :: s.callerFut }
  | none =>
    { s with
      inflight := mapSet s.inflight key s.nextId
      nextId := s.nextId + 1
      runs := s.runs ++ [key]
      callerFut := (caller, s.nextId) :: s.callerFut }

/-- Atomic step 2 — the registered promise for a key settles (success or
failure alike): the `finally` clause removes the registry entry, and the
shared promise settles with the outcome every subscriber observes. -/
def onceSettle {O : Type _} (s : OnceState O) (key : String) (out : O) :
    OnceState O :=
  match mapLookup s.inflight key with
  | some p =>
    { s with
      inflight := mapDelete s.inflight key
      settled := (p, out) :: s.settled }
  | none => s

def onceStep {O : Type _} (s : OnceState O) : OnceEvent O → OnceState O
  | .call t q o c => onceCall s t q o c
  | .settle k out => onceSettle s k out

def onceRun {O : Type _} (s : OnceState O) (es : List (OnceEvent O)) :
    OnceState O :=
  es.foldl onceStep s

def eventKey {O : Type _} : OnceEvent O → String
  | .call t q o _ => inflightKey t q o
  | .settle k _ => k

def eventCaller {O : Type _} : OnceEvent O → Option Nat
  | .call _ _ _ c => some c
  | .settle _ _ => none

/-- The C1 scenario: caller `c₁` invokes `once`, arbitrary unrelated
traffic `mid` runs, caller `c₂` invokes `once` with identical arguments
before the shared promise settles, and then it settles.  Returns the
states just after the second call and after the settle. -/
def onceScenario {O : Type _} (s₀ : OnceState O) (tool query : String)
    (opts : JVal) (c₁ c₂ : Nat) (mid : List (OnceEvent O)) (out : O) :
    OnceState O × OnceState O :=
  let s₁ := onceCall s₀ tool query opts c₁
  let s₂ := onceRun s₁ mid
  let s₃ := onceCall s₂ tool query opts c₂
  let s₄ := onceSettle s₃ (inflightKey tool query opts) out
  (s₃, s₄)

/-! Registry bookkeeping lemmas. -/

theorem mapLookup_mapSet_ne {V : Type _} {k key : String} (h : k ≠ key) :
    ∀ (m : List (String × V)) (v : V),
      mapLookup (mapSet m k v) key = mapLookup m key
  | [], v => by simp [mapSet, mapLookup, h]
  | (k', v') :: t, v => by
    by_cases hk : k' = k
    · subst hk
      simp [mapSet, mapLookup, h]
    · simp only [mapSet, if_neg hk, mapLookup]
      by_cases hk2 : k' = key
      · simp [hk2]
      · simp only [if_neg hk2]
        exact mapLookup_mapSet_ne h t v

theorem mapLookup_mapDelete_ne {V : Type _} {k key : String} (h : k ≠ key) :
    ∀ m : List (String × V),
      mapLookup (mapDelete m k) key = mapLookup m key
  | [] => rfl
  | (k', v') :: t => by
    by_cases hk : k' = k
    · subst hk
      simp [mapDelete, mapLookup, h]
    · simp only [mapDelete, if_neg hk, mapLookup]
      by_cases hk2 : k' = key
      · simp [hk2]
      · simp only [if_neg hk2]
        exact mapLookup_mapDelete_ne h t

theorem keyCount_eq_zero_iff {V : Type _} :
    ∀ {m : List (String × V)} {key : String},
      keyCount m key = 0 ↔ mapLookup m key = none := by
  intro m key
  induction m with
  | nil => simp [keyCount, mapLookup]
  | cons p t ih =>
    obtain ⟨k', v'⟩ := p
    by_cases hk : k' = key
    · simp [keyCount, mapLookup, hk, List.filter_cons]
    · simpa [keyCount, mapLookup, hk, List.filter_cons] using ih

theorem keyCount_mapSet_ne {V : Type _} {k key : String} (h : k ≠ key) :
    ∀ (m : List (String × V)) (v : V),
      keyCount (mapSet m k v) key = keyCount m key
  | [], v => by simp [mapSet, keyCount, List.filter_cons, h]
  | (k', v') :: t, v => by
    by_cases hk : k' = k
    · subst hk
      simp [mapSet, keyCount, List.filter_cons, h]
    · have ih := keyCount_mapSet_ne h t v
      simp only [keyCount] at ih
      simp only [mapSet, if_neg hk, keyCount, List.filter_cons]
      by_cases hk2 : (k' == key) = true <;> simp [hk2, ih]

theorem keyCount_mapDelete_le {V : Type _} (k key : String) :
    ∀ m : List (String × V),
      keyCount (mapDelete m k) key ≤ keyCount m key
  | [] => le_refl _
  | (k', v') :: t => by
    by_cases hk : k' = k
    · simp only [mapDelete, if_pos hk, keyCount, List.filter_cons]
      by_cases hk2 : (k' == key) = true <;> simp [hk2, keyCount]
    · have ih := keyCount_mapDelete_le k key t
      simp only [keyCount] at ih
      simp only [mapDelete, if_neg hk, keyCount, List.filter_cons]
      by_cases hk2 : (k' == key) = true <;> simp [hk2] <;> exact ih

theorem keyCount_mapDelete_ne {V : Type _} {k key : String} (h : k ≠ key) :
    ∀ m : List (String × V),
      keyCount (mapDelete m k) key = keyCount m key
  | [] => rfl
  | (k', v') :: t => by
    by_cases hk : k' = k
    · subst hk
      simp [mapDelete, keyCount, List.filter_cons, beq_eq_false_iff_ne.mpr h]
    · have ih := keyCount_mapDelete_ne h t
      simp only [keyCount] at ih
      simp only [mapDelete, if_neg hk, keyCount, List.filter_cons]
      by_cases hk2 : (k' == key) = true <;> simp [hk2, ih]

theorem keyCount_append_self {V : Type _} (m : List (String × V))
    (key : String) (v : V) :
    keyCount (m ++ [(key, v)]) key = keyCount m key + 1 := by
  simp [keyCount, List.filter_append, List.filter_cons]

theorem mapLookup_mapDelete_self_of_one {V : Type _} :
    ∀ {m : List (String × V)} {key : String}, keyCount m key = 1 →
      mapLookup (mapDelete m key) key = none := by
  intro m key
  induction m with
  | nil => intro h; rfl
  | cons p t ih =>
    obtain ⟨k', v'⟩ := p
    intro h
    by_cases hk : k' = key
    · subst hk
      have h0 : keyCount t k' = 0 := by
        simp [keyCount, List.filter_cons] at h
        simpa [keyCount] using h
      simp only [mapDelete, if_pos rfl]
      exact keyCount_eq_zero_iff.mp h0
    · simp only [keyCount, List.filter_cons,
        beq_eq_false_iff_ne.mpr hk, Bool.false_eq_true, if_neg] at h
      simp only [mapDelete, if_neg hk, mapLookup, if_neg hk]
      exact ih (by simpa [keyCount] using h)

theorem lookupBy_cons_ne {A : Type _} {c c₁ : Nat} {p : A}
    {t : List (Nat × A)} (h : c ≠ c₁) :
    lookupBy ((c, p) :: t) c₁ = lookupBy t c₁ := by
  simp [lookupBy, h]

/-- Events on other keys (and other callers) leave everything about `key`
and caller `c₁` unchanged. -/
theorem onceStep_frame {O : Type _} (s : OnceState O) (e : OnceEvent O)
    (key : String) (c₁ : Nat) (hk : eventKey e ≠ key)
    (hc : eventCaller e ≠ some c₁) :
    mapLookup (onceStep s e).inflight key = mapLookup s.inflight key ∧
    keyCount (onceStep s e).inflight key = keyCount s.inflight key ∧
    (onceStep s e).runs.count key = s.runs.count key ∧
    lookupBy (onceStep s e).callerFut c₁ = lookupBy s.callerFut c₁ := by
  cases e with
  | call t q o c =>
    have hk' : inflightKey t q o ≠ key := hk
    have hc' : c ≠ c₁ := fun hcc => hc (by simp [eventCaller, hcc])
    simp only [onceStep, onceCall]
    cases hl : mapLookup s.inflight (inflightKey t q o) with
    | some p =>
      exact ⟨rfl, rfl, rfl, lookupBy_cons_ne hc'⟩
    | none =>
      refine ⟨mapLookup_mapSet_ne hk' _ _, keyCount_mapSet_ne hk' _ _, ?_,
        lookupBy_cons_ne hc'⟩
      simp [List.count_append, List.count_cons, beq_eq_false_iff_ne.mpr hk']
  | settle k out =>
    have hk' : k ≠ key := hk
    simp only [onceStep, onceSettle]
    cases hl : mapLookup s.inflight k with
    | some p =>
      exact ⟨mapLookup_mapDelete_ne hk' _, keyCount_mapDelete_ne hk' _,
        rfl, rfl⟩
    | none =>
      exact ⟨rfl, rfl, rfl, rfl⟩

theorem onceRun_frame {O : Type _} :
    ∀ (mid : List (OnceEvent O)) (s : OnceState O) (key : String) (c₁ : Nat),
      (∀ e ∈ mid, eventKey e ≠ key) →
      (∀ e ∈ mid, eventCaller e ≠ some c₁) →
      mapLookup (onceRun s mid).inflight key = mapLookup s.inflight key ∧
      keyCount (onceRun s mid).inflight key = keyCount s.inflight key ∧
      (onceRun s mid).runs.count key = s.runs.count key ∧
      lookupBy (onceRun s mid).callerFut c₁ = lookupBy s.callerFut c₁
  | [], _, _, _, _, _ => ⟨rfl, rfl, rfl, rfl⟩
  | e :: es, s, key, c₁, hk, hc => by
    have h1 := onceStep_frame s e key c₁ (hk e (by simp)) (hc e (by simp))
    have h2 := onceRun_frame es (onceStep s e) key c₁
      (fun e' he' => hk e' (by simp [he'])) (fun e' he' => hc e' (by simp [he']))
    simp only [onceRun, List.foldl_cons] at h2 ⊢
    exact ⟨h2.1.trans h1.1, h2.2.1.trans h1.2.1, h2.2.2.1.trans h1.2.2.1,
      h2.2.2.2.trans h1.2.2.2⟩

/-- C1: in any scenario where caller `c₁` invokes `once`, arbitrary events
on other keys and by other callers interleave, caller `c₂` then invokes
`once` with identical `(tool, query, options)` before the shared promise
settles, and the promise finally settles with outcome `out`:
`run` is started exactly once for the key; both callers receive the same
promise, which settles with the one shared outcome; after the settle the
registry entry for the key is gone (success and failure alike — the
deletion is in a `finally`); exactly one entry for the key is in flight
between the first call and the settle; and — the general invariant — no
step ever puts a second entry for a key already in flight. -/
theorem once_coalesces :
    (∀ (O : Type) (s₀ : OnceState O) (tool query : String) (opts : JVal)
        (c₁ c₂ : Nat) (mid : List (OnceEvent O)) (out : O),
      mapLookup s₀.inflight (inflightKey tool query opts) = none →
      (∀ e ∈ mid, eventKey e ≠ inflightKey tool query opts) →
      (∀ e ∈ mid, eventCaller e ≠ some c₁) →
      c₂ ≠ c₁ →
      (onceScenario s₀ tool query opts c₁ c₂ mid out).1.runs.count
          (inflightKey tool query opts) =
        s₀.runs.count (inflightKey tool query opts) + 1 ∧
      lookupBy (onceScenario s₀ tool query opts c₁ c₂ mid out).1.callerFut c₁ =
        some s₀.nextId ∧
      lookupBy (onceScenario s₀ tool query opts c₁ c₂ mid out).1.callerFut c₂ =
        some s₀.nextId ∧
      lookupBy (onceScenario s₀ tool query opts c₁ c₂ mid out).2.settled
        s₀.nextId = some out ∧
      keyCount (onceScenario s₀ tool query opts c₁ c₂ mid out).1.inflight
        (inflightKey tool query opts) = 1 ∧
      mapLookup (onceScenario s₀ tool query opts c₁ c₂ mid out).2.inflight
        (inflightKey tool query opts) = none ∧
      (onceScenario s₀ tool query opts c₁ c₂ mid out).2.runs =
        (onceScenario s₀ tool query opts c₁ c₂ mid out).1.runs) ∧
    (∀ (O : Type) (s : OnceState O) (e : OnceEvent O) (k : String),
      keyCount s.inflight k ≤ 1 → keyCount (onceStep s e).inflight k ≤ 1) := by
  constructor
  · intro O s₀ tool query opts c₁ c₂ mid out h₀ hmk hmc hcc
    simp only [onceScenario]
    have e₁ : onceCall s₀ tool query opts c₁ =
        { s₀ with
          inflight := mapSet s₀.inflight (inflightKey tool query opts) s₀.nextId
          nextId := s₀.nextId + 1
          runs := s₀.runs ++ [inflightKey tool query opts]
          callerFut := (c₁, s₀.nextId) :: s₀.callerFut } := by
      simp only [onceCall, h₀]
    have f1 : mapLookup (onceCall s₀ tool query opts c₁).inflight
        (inflightKey tool query opts) = some s₀.nextId := by
      rw [e₁]
      exact mapLookup_mapSet_self _ _ _
    have f2 : keyCount (onceCall s₀ tool query opts c₁).inflight
        (inflightKey tool query opts) = 1 := by
      rw [e₁]
      show keyCount (mapSet s₀.inflight (inflightKey tool query opts)
        s₀.nextId) (inflightKey tool query opts) = 1
      rw [mapSet_of_not_mem h₀, keyCount_append_self,
        keyCount_eq_zero_iff.mpr h₀]
    have f3 : (onceCall s₀ tool query opts c₁).runs.count
        (inflightKey tool query opts) =
        s₀.runs.count (inflightKey tool query opts) + 1 := by
      rw [e₁]
      show (s₀.runs ++ [inflightKey tool query opts]).count _ = _
      simp [List.count_append]
    have f4 : lookupBy (onceCall s₀ tool query opts c₁).callerFut c₁ =
        some s₀.nextId := by
      rw [e₁]
      show lookupBy ((c₁, s₀.nextId) :: s₀.callerFut) c₁ = some s₀.nextId
      simp [lookupBy]
    obtain ⟨g1, g2, g3, g4⟩ :=
      onceRun_frame mid (onceCall s₀ tool query opts c₁)
        (inflightKey tool query opts) c₁ hmk hmc
    rw [f1] at g1
    rw [f2] at g2
    rw [f3] at g3
    rw [f4] at g4
    have onceCall_hit : ∀ (s : OnceState O) (c p : Nat),
        mapLookup s.inflight (inflightKey tool query opts) = some p →
        onceCall s tool query opts c =
          { s with callerFut := (c, p) :: s.callerFut } := by
      intro s c p hp
      simp only [onceCall, hp]
    have onceSettle_hit : ∀ (s : OnceState O) (p : Nat),
        mapLookup s.inflight (inflightKey tool query opts) = some p →
        onceSettle s (inflightKey tool query opts) out =
          { s with
            inflight := mapDelete s.inflight (inflightKey tool query opts)
            settled := (p, out) :: s.settled } := by
      intro s p hp
      simp only [onceSettle, hp]
    have e₃ : onceCall (onceRun (onceCall s₀ tool query opts c₁) mid)
        tool query opts c₂ =
        { onceRun (onceCall s₀ tool query opts c₁) mid with
          callerFut := (c₂, s₀.nextId) ::
            (onceRun (onceCall s₀ tool query opts c₁) mid).callerFut } :=
      onceCall_hit _ c₂ s₀.nextId g1
    have s₃inflight : (onceCall (onceRun (onceCall s₀ tool query opts c₁) mid)
        tool query opts c₂).inflight =
        (onceRun (onceCall s₀ tool query opts c₁) mid).inflight := by
      rw [e₃]
    have s₃lookup : mapLookup (onceCall (onceRun (onceCall s₀ tool query opts
        c₁) mid) tool query opts c₂).inflight (inflightKey tool query opts) =
        some s₀.nextId := by
      rw [s₃inflight]
      exact g1
    have s₃count : keyCount (onceCall (onceRun (onceCall s₀ tool query opts
        c₁) mid) tool query opts c₂).inflight (inflightKey tool query opts) =
        1 := by
      rw [s₃inflight]
      exact g2
    have e₄ : onceSettle (onceCall (onceRun (onceCall s₀ tool query opts c₁)
        mid) tool query opts c₂) (inflightKey tool query opts) out =
        { onceCall (onceRun (onceCall s₀ tool query opts c₁) mid)
            tool query opts c₂ with
          inflight := mapDelete (onceCall (onceRun (onceCall s₀ tool query
            opts c₁) mid) tool query opts c₂).inflight
            (inflightKey tool query opts)
          settled := (s₀.nextId, out) ::
            (onceCall (onceRun (onceCall s₀ tool query opts c₁) mid)
              tool query opts c₂).settled } :=
      onceSettle_hit _ s₀.nextId s₃lookup
    refine ⟨?_, ?_, ?_, ?_, ?_, ?_, ?_⟩
    · rw [e₃]
      exact g3
    · rw [e₃]
      show lookupBy ((c₂, s₀.nextId) :: _) c₁ = some s₀.nextId
      rw [lookupBy_cons_ne hcc]
      exact g4
    · rw [e₃]
      show lookupBy ((c₂, s₀.nextId) :: _) c₂ = some s₀.nextId
      simp [lookupBy]
    · rw [e₄]
      show lookupBy ((s₀.nextId, out) :: _) s₀.nextId = some out
      simp [lookupBy]
    · exact s₃count
    · rw [e₄]
      show mapLookup (mapDelete _ (inflightKey tool query opts))
        (inflightKey tool query opts) = none
      exact mapLookup_mapDelete_self_of_one s₃count
    · rw [e₄]
  · intro O s e k h
    cases e with
    | call t q o c =>
      simp only [onceStep, onceCall]
      cases hl : mapLookup s.inflight (inflightKey t q o) with
      | some p => exact h
      | none =>
        by_cases hk : inflightKey t q o = k
        · subst hk
          show keyCount (mapSet s.inflight (inflightKey t q o) s.nextId)
            (inflightKey t q o) ≤ 1
          rw [mapSet_of_not_mem hl, keyCount_append_self,
            keyCount_eq_zero_iff.mpr hl]
        · show keyCount (mapSet s.inflight (inflightKey t q o) s.nextId) k ≤ 1
          rw [keyCount_mapSet_ne hk]
          exact h
    | settle k' out =>
      simp only [onceStep, onceSettle]
      cases hl : mapLookup s.inflight k' with
      | some p => exact le_trans (keyCount_mapDelete_le k' k s.inflight) h
      | none => exact h

/-- Witness for C1 at concrete inputs: two callers coalesce on the key of
`("webSearch", "gdp", null)` around an interleaved unrelated call. -/
theorem once_coalesces_witness :
    (onceScenario (O := String) ⟨[], 0, [], [], []⟩ "webSearch" "gdp" .null
        1 2 [.call "other" "x" .null 3] "result").1.runs.count
      (inflightKey "webSearch" "gdp" .null) = 0 + 1 ∧
    lookupBy (onceScenario (O := String) ⟨[], 0, [], [], []⟩ "webSearch"
      "gdp" .null 1 2 [.call "other" "x" .null 3]
      "result").1.callerFut 1 = some 0 ∧
    lookupBy (onceScenario (O := String) ⟨[], 0, [], [], []⟩ "webSearch"
      "gdp" .null 1 2 [.call "other" "x" .null 3]
      "result").1.callerFut 2 = some 0 ∧
    lookupBy (onceScenario (O := String) ⟨[], 0, [], [], []⟩ "webSearch"
      "gdp" .null 1 2 [.call "other" "x" .null 3]
      "result").2.settled 0 = some "result" ∧
    keyCount (onceScenario (O := String) ⟨[], 0, [], [], []⟩ "webSearch"
      "gdp" .null 1 2 [.call "other" "x" .null 3] "result").1.inflight
      (inflightKey "webSearch" "gdp" .null) = 1 ∧
    mapLookup (onceScenario (O := String) ⟨[], 0, [], [], []⟩ "webSearch"
      "gdp" .null 1 2 [.call "other" "x" .null 3] "result").2.inflight
      (inflightKey "webSearch" "gdp" .null) = none ∧
    (onceScenario (O := String) ⟨[], 0, [], [], []⟩ "webSearch" "gdp" .null
      1 2 [.call "other" "x" .null 3] "result").2.runs =
    (onceScenario (O := String) ⟨[], 0, [], [], []⟩ "webSearch" "gdp" .null
      1 2 [.call "other" "x" .null 3] "result").1.runs := by
  have h := once_coalesces.1 String ⟨[], 0, [], [], []⟩ "webSearch" "gdp"
    .null 1 2 [.call "other" "x" .null 3] "result" (by decide)
    (by intro e he; simp at he; subst he; decide)
    (by intro e he; simp at he; subst he; decide) (by decide)
  simpa using h

/-! ### `dedupeBy` (source lines 462–472) and `dedupeAgainstRequest`
(source lines 593–612) -/

/-- The shared filter body of `dedupeBy` / `dedupeAgainstRequest`:
`arr.filter` with a mutable `seen` set, translated to a fold threading
the set.  A record whose id is falsy (the empty string) is dropped
(`if (!id || seen.has(id)) return false`); otherwise the first occurrence
is kept and its id added. -/
def dedupeSeenAux {T : Type _} (getId : T → String) :
    List T → List String → List T × List String
  | [], bag => ([], bag)
  | x :: xs, bag =>
    if getId x = "" ∨ getId x ∈ bag then dedupeSeenAux getId xs bag
    else
      let rest := dedupeSeenAux getId xs (getId x :: bag)
      (x :: rest.1, rest.2)

/-- Source `dedupeBy`: filter against a fresh `seen` set. -/
def dedupeBy {T : Type _} (arr : List T) (getId : T → String) : List T :=
  (dedupeSeenAux getId arr []).1

/-- Source `dedupeAgainstRequest`: a falsy `requestId` (absent or empty)
is a passthrough touching nothing; otherwise filter against (and update)
the per-request seen set in the process-wide `seenByRequest` map. -/
def dedupeAgainstRequest {T : Type _} (requestId : Option String)
    (items : List T) (getId : T → String)
    (seenByRequest : List (String × List String)) :
    List T × List (String × List String) :=
  match requestId with
  | none => (items, seenByRequest)
  | some rid =>
    if rid = "" then (items, seenByRequest)
    else
      let bag := (mapLookup seenByRequest rid).getD []
      let res := dedupeSeenAux getId items bag
      (res.1, mapSet seenByRequest rid res.2)

/-- C9: with an absent or empty `requestId`, `dedupeAgainstRequest` is a
no-op passthrough: the output list is the input unmodified and the
process-wide seen-set map is untouched. -/
theorem dedupeAgainstRequest_no_requestId :
    (∀ (T : Type) (items : List T) (getId : T → String)
        (m : List (String × List String)),
      dedupeAgainstRequest none items getId m = (items, m)) ∧
    (∀ (T : Type) (items : List T) (getId : T → String)
        (m : List (String × List String)),
      dedupeAgainstRequest (some "") items getId m = (items, m)) :=
  ⟨fun _ _ _ _ => rfl, fun _ _ _ _ => rfl⟩

theorem dedupeSeenAux_sublist {T : Type _} (getId : T → String) :
    ∀ (l : List T) (bag : List String),
      (dedupeSeenAux getId l bag).1.Sublist l
  | [], _ => List.Sublist.slnil
  | x :: xs, bag => by
    by_cases h : getId x = "" ∨ getId x ∈ bag
    · simp only [dedupeSeenAux, if_pos h]
      exact (dedupeSeenAux_sublist getId xs bag).cons x
    · simp only [dedupeSeenAux, if_neg h]
      exact (dedupeSeenAux_sublist getId xs (getId x :: bag)).cons₂ x

theorem dedupeSeenAux_no_empty {T : Type _} (getId : T → String) :
    ∀ (l : List T) (bag : List String) (x : T),
      x ∈ (dedupeSeenAux getId l bag).1 → getId x ≠ ""
  | [], _, _, hx => absurd hx (by simp [dedupeSeenAux])
  | y :: ys, bag, x, hx => by
    by_cases h : getId y = "" ∨ getId y ∈ bag
    · simp only [dedupeSeenAux, if_pos h] at hx
      exact dedupeSeenAux_no_empty getId ys bag x hx
    · simp only [dedupeSeenAux, if_neg h] at hx
      rcases List.mem_cons.mp hx with rfl | hx'
      · exact fun he => h (Or.inl he)
      · exact dedupeSeenAux_no_empty getId ys (getId y :: bag) x hx'

theorem dedupeSeenAux_nodup {T : Type _} (getId : T → String) :
    ∀ (l : List T) (bag : List String),
      ((dedupeSeenAux getId l bag).1.map getId).Nodup ∧
        ∀ x ∈ (dedupeSeenAux getId l bag).1, getId x ∉ bag
  | [], _ => ⟨List.nodup_nil, by simp [dedupeSeenAux]⟩
  | y :: ys, bag => by
    by_cases h : getId y = "" ∨ getId y ∈ bag
    · simp only [dedupeSeenAux, if_pos h]
      exact dedupeSeenAux_nodup getId ys bag
    · simp only [dedupeSeenAux, if_neg h]
      obtain ⟨hnd, hnin⟩ := dedupeSeenAux_nodup getId ys (getId y :: bag)
      push_neg at h
      refine ⟨List.nodup_cons.mpr ⟨?_, hnd⟩, ?_⟩
      · intro hmem
        obtain ⟨x, hx, hgx⟩ := List.mem_map.mp hmem
        exact hnin x hx (hgx ▸ List.mem_cons_self _ _)
      · intro x hx
        rcases List.mem_cons.mp hx with rfl | hx'
        · exact h.2
        · exact fun hb => hnin x hx' (List.mem_cons_of_mem _ hb)

theorem dedupeSeenAux_first_occ {T : Type _} (getId : T → String) :
    ∀ (pre : List T) (x : T) (post : List T) (bag : List String),
      getId x ≠ "" → (∀ y ∈ pre, getId y ≠ getId x) → getId x ∉ bag →
      x ∈ (dedupeSeenAux getId (pre ++ x :: post) bag).1
  | [], x, post, bag, hne, _, hnb => by
    simp only [List.nil_append, dedupeSeenAux,
      if_neg (not_or.mpr ⟨hne, hnb⟩)]
    exact List.mem_cons_self _ _
  | y :: pre, x, post, bag, hne, hpre, hnb => by
    simp only [List.cons_append]
    by_cases h : getId y = "" ∨ getId y ∈ bag
    · simp only [dedupeSeenAux, if_pos h]
      exact dedupeSeenAux_first_occ getId pre x post bag hne
        (fun z hz => hpre z (List.mem_cons_of_mem _ hz)) hnb
    · simp only [dedupeSeenAux, if_neg h]
      refine List.mem_cons_of_mem _ ?_
      refine dedupeSeenAux_first_occ getId pre x post (getId y :: bag) hne
        (fun z hz => hpre z (List.mem_cons_of_mem _ hz)) ?_
      intro hmem
      rcases List.mem_cons.mp hmem with heq | hb
      · exact hpre y (List.mem_cons_self _ _) heq.symm
      · exact hnb hb

/-- C10: `dedupeBy` drops every record whose id is the falsy empty string
(including its first occurrence); output order is a sublist of the input;
surviving ids are pairwise distinct; the first occurrence of each
non-empty id survives; and `dedupeAgainstRequest` with a truthy
`requestId` applies the same falsy-id drop. -/
theorem dedupeBy_first_occurrence_nonempty :
    (∀ (T : Type) (arr : List T) (getId : T → String),
      (dedupeBy arr getId).Sublist arr) ∧
    (∀ (T : Type) (arr : List T) (getId : T → String),
      ∀ x ∈ dedupeBy arr getId, getId x ≠ "") ∧
    (∀ (T : Type) (arr : List T) (getId : T → String),
      ((dedupeBy arr getId).map getId).Nodup) ∧
    (∀ (T : Type) (pre : List T) (x : T) (post : List T)
        (getId : T → String),
      getId x ≠ "" → (∀ y ∈ pre, getId y ≠ getId x) →
      x ∈ dedupeBy (pre ++ x :: post) getId) ∧
    (∀ (T : Type) (rid : String) (items : List T) (getId : T → String)
        (m : List (String × List String)),
      rid ≠ "" →
      ∀ x ∈ (dedupeAgainstRequest (some rid) items getId m).1,
        getId x ≠ "") := by
  refine ⟨fun T arr getId => dedupeSeenAux_sublist getId arr [],
    fun T arr getId x hx => dedupeSeenAux_no_empty getId arr [] x hx,
    fun T arr getId => (dedupeSeenAux_nodup getId arr []).1,
    fun T pre x post getId hne hpre =>
      dedupeSeenAux_first_occ getId pre x post [] hne hpre (by simp),
    fun T rid items getId m hrid x hx => ?_⟩
  simp only [dedupeAgainstRequest, if_neg hrid] at hx
  exact dedupeSeenAux_no_empty getId items _ x hx

/-- Witness for C10 at concrete inputs: records are `(id, payload)` pairs.
The empty-id record is dropped entirely, the duplicate `"x"` keeps only
its first occurrence, and the passthrough branch is exercised with a
truthy request id. -/
theorem dedupeBy_first_occurrence_nonempty_witness :
    (dedupeBy [("", "a"), ("x", "b"), ("x", "c"), ("y", "d")]
        Prod.fst).Sublist [("", "a"), ("x", "b"), ("x", "c"), ("y", "d")] ∧
    (∀ p ∈ dedupeBy [("", "a"), ("x", "b"), ("x", "c"), ("y", "d")]
        Prod.fst, p.1 ≠ "") ∧
    ((dedupeBy [("", "a"), ("x", "b"), ("x", "c"), ("y", "d")]
        Prod.fst).map Prod.fst).Nodup ∧
    ("x", "b") ∈ dedupeBy [("", "a"), ("x", "b"), ("x", "c"), ("y", "d")]
        Prod.fst ∧
    (∀ p ∈ (dedupeAgainstRequest (some "req1")
        [("", "a"), ("x", "b")] Prod.fst []).1, p.1 ≠ "") := by
  have h := dedupeBy_first_occurrence_nonempty
  exact ⟨h.1 _ _ _, h.2.1 _ _ _, h.2.2.1 _ _ _,
    h.2.2.2.1 (String × String) [("", "a")] ("x", "b")
      [("x", "c"), ("y", "d")] Prod.fst (by decide) (by decide),
    h.2.2.2.2 _ "req1" _ _ [] (by decide)⟩

/-! ### Identifier extraction and URL normalization
(source lines 354–392 and 446–461) -/

/-- Lowercase a string characterwise. -/
def strLower (s : String) : String := String.mk (s.data.map Char.toLower)

/-- Characters of the DOI-suffix class `[-._;()/:A-Z0-9]` under the
case-insensitive flag. -/
def isDoiTailChar (c : Char) : Bool :=
  c.isAlpha || c.isDigit || c = '-' || c = '.' || c = '_' || c = ';' ||
    c = '(' || c = ')' || c = '/' || c = ':'

/-- Match the DOI pattern `10\.\d{4,9}\/[-._;()/:A-Z0-9]+` at the head of
the list, returning the matched characters.  `\d{4,9}` is greedy and `/`
is not a digit, so the match succeeds exactly when the maximal digit run
has length 4–9 and is followed by `/` and at least one suffix char. -/
def doiAt : List Char → Option (List Char)
  | '1' :: '0' :: '.' :: rest =>
    let ds := rest.takeWhile Char.isDigit
    if 4 ≤ ds.length ∧ ds.length ≤ 9 then
      match rest.drop ds.length with
      | '/' :: tail =>
        let body := tail.takeWhile isDoiTailChar
        if body.isEmpty then none
        else some ('1' :: '0' :: '.' :: (ds ++ '/' :: body))
      | _ => none
    else none
  | _ => none

/-- Leftmost match of the DOI pattern. -/
def doiScan : List Char → Option (List Char)
  | [] => none
  | c :: t =>
    match doiAt (c :: t) with
    | some m => some m
    | none => doiScan t

/-- Source `extractDoi` (lines 388–392): leftmost DOI-pattern match,
lowercased; `undefined` when the input is absent/empty or no match. -/
def extractDoi (s : Option String) : Option String :=
  match s with
  | none => none
  | some str =>
    match doiScan str.data with
    | some m => some (String.mk (m.map Char.toLower))
    | none => none

/-- Case-insensitive literal prefix match (pattern given in lowercase);
returns the rest of the input after the pattern. -/
def ciPrefix : List Char → List Char → Option (List Char)
  | s, [] => some s
  | [], _ :: _ => none
  | c :: s, p :: ps => if c.toLower = p then ciPrefix s ps else none

/-- `[\w.\-]` — word characters, dot and dash. -/
def isArxivIdChar (c : Char) : Bool :=
  c.isAlpha || c.isDigit || c = '_' || c = '.' || c = '-'

/-- Match `arxiv\.org\/(?:abs|pdf)\/([\w.\-]+)` (case-insensitive) at the
head of the list, returning capture group 1. -/
def arxivAt (l : List Char) : Option (List Char) :=
  match ciPrefix l "arxiv.org/".data with
  | none => none
  | some rest =>
    let rest2 :=
      match ciPrefix rest "abs/".data with
      | some r => some r
      | none => ciPrefix rest "pdf/".data
    match rest2 with
    | none => none
    | some r =>
      let body := r.takeWhile isArxivIdChar
      if body.isEmpty then none else some body

def arxivScan : List Char → Option (List Char)
  | [] => none
  | c :: t =>
    match arxivAt (c :: t) with
    | some m => some m
    | none => arxivScan t

/-- Source `extractArxivId` (lines 383–387): the captured id is returned
in its original case. -/
def extractArxivId (s : Option String) : Option String :=
  match s with
  | none => none
  | some str =>
    match arxivScan str.data with
    | some m => some (String.mk m)
    | none => none

/-- Split at the first occurrence of any stop character, returning the
part before it and the remainder including the stop. -/
def splitAtFirst (stops : List Char) : List Char → List Char × List Char
  | [] => ([], [])
  | c :: t =>
    if c ∈ stops then ([], c :: t)
    else
      let r := splitAtFirst stops t
      (c :: r.1, r.2)

/-- Locate `://`, returning the scheme characters before it and the rest
after it; `none` models the `new URL(...)` constructor throwing. -/
def findSchemeSep : List Char → Option (List Char × List Char)
  | [] => none
  | ':' :: '/' :: '/' :: rest => some ([], rest)
  | c :: t => (findSchemeSep t).map (fun r => (c :: r.1, r.2))

/-- Split on a separator character (like `String.prototype.split`). -/
def splitOnChar (sep : Char) : List Char → List (List Char)
  | [] => [[]]
  | c :: t =>
    let r := splitOnChar sep t
    if c = sep then [] :: r
    else
      match r with
      | h :: rt => (c :: h) :: rt
      | [] => [[c]]

def paramName (p : List Char) : List Char := (splitAtFirst ['='] p).1

/-- The tracking parameters stripped at source lines 360–363:
`utm_*`, `ref`, `ref_src`. -/
def isTrackingParam (name : List Char) : Bool :=
  listHasPrefix name "utm_".data || name == "ref".data ||
    name == "ref_src".data

/-- `pathname.replace(/\/+$/, "")`. -/
def dropTrailingSlashes (l : List Char) : List Char :=
  (l.reverse.dropWhile (fun c => c == '/')).reverse

/-- Source `normalizeUrl` (lines 354–371), with WHATWG URL parsing
modelled as `scheme://host[/path][?query][#hash]` splitting (percent
re-encoding and default-port handling elided — no claim depends on
them): drop the fragment, strip tracking query parameters, lowercase the
scheme and host, strip trailing slashes from the path, keep the
remaining query in order; on a parse failure return the trimmed input;
on an absent/empty input return the empty string. -/
def normalizeUrl (url : Option String) : String :=
  match url with
  | none => ""
  | some u =>
    if u = "" then ""
    else
      match findSchemeSep u.data with
      | none => String.mk (trimChars u.data)
      | some (scheme, rest) =>
        let hostSplit := splitAtFirst ['/', '?', '#'] rest
        let host := hostSplit.1.map Char.toLower
        let pq := splitAtFirst ['?', '#'] hostSplit.2
        let path := dropTrailingSlashes pq.1
        let rawQuery :=
          match pq.2 with
          | '?' :: t => (splitAtFirst ['#'] t).1
          | _ => []
        let params := if rawQuery.isEmpty then [] else splitOnChar '&' rawQuery
        let kept := params.filter (fun p => !(isTrackingParam (paramName p)))
        let qs := List.intercalate ['&'] kept
        String.mk ((scheme.map Char.toLower) ++ ':' :: '/' :: '/' :: host ++
          path ++ (if qs.isEmpty then [] else '?' :: qs))

/-- A result record: the fields `resultId` reads.  `data_nct_id`,
`metadata_pmid`, `metadata_doi`, `metadata_setid` model the nested
`r.data?.nct_id`, `r.metadata?.pmid`, `r.metadata?.doi`,
`r.metadata?.setid` accesses; an absent object or field is `none`. -/
structure RRecord where
  nct_id : Option String := none
  data_nct_id : Option String := none
  metadata_pmid : Option String := none
  pmid : Option String := none
  metadata_doi : Option String := none
  doi : Option String := none
  metadata_setid : Option String := none
  url : Option String := none
  title : Option String := none
  source : Option String := none
  date : Option String := none
  content : Option String := none

/-- JS `a || b` on an optional string, with `undefined` and `""` falsy. -/
def jsOr (a : Option String) (b : String) : String :=
  match a with
  | some s => if s = "" then b else s
  | none => b

def optStr (o : Option String) : String := o.getD ""

/-- The natural-key selection of source `resultId` (lines 446–461): the
first truthy link of the `||` chain.  Note that `extractDoi` is NOT part
of this chain — `resultId` consults only the `doi`/`metadata.doi` record
fields, never a DOI embedded in the URL or content (the `webSearch`
caller at lines 2274–2282 runs `extractDoi` itself, outside `resultId`). -/
def resultIdKey (r : RRecord) : String :=
  jsOr r.nct_id (jsOr r.data_nct_id (jsOr r.metadata_pmid (jsOr r.pmid
    (jsOr r.metadata_doi (jsOr r.doi (jsOr r.metadata_setid
      (jsOr (extractArxivId r.url)
        (jsOr (some (normalizeUrl r.url))
          (strLower (optStr r.title) ++ "|" ++ strLower (optStr r.source) ++
            "|" ++ optStr r.date)))))))))

/-- Source `resultId` = `keyToUuid` applied to the natural key.
`keyToUuid` (lines 372–382) is a fixed deterministic fingerprint
(SHA-256 truncated to 16 bytes in UUIDv4 text layout); computing the
digest is out of scope, so it is a parameter: equal natural keys give
equal fingerprints for every deterministic `digest`. -/
def resultId (digest : String → String) (r : RRecord) : String :=
  digest (resultIdKey r)

/-- Counterexample to C8 as stated: two records carry the same DOI
`10.1234/abc` — extractable from their URLs by the `extractDoi` pattern —
yet `resultId` fingerprints them differently (exhibited at the
natural-key level, instantiating the digest with the identity), because
`resultId` never invokes `extractDoi` and falls through to the
normalized URL, which differs. -/
theorem resultId_doi_in_url_not_used :
    extractDoi (some "https://a.com/10.1234/abc") = some "10.1234/abc" ∧
    extractDoi (some "https://b.com/10.1234/abc") = some "10.1234/abc" ∧
    resultId id { url := some "https://a.com/10.1234/abc" } ≠
      resultId id { url := some "https://b.com/10.1234/abc" } := by
  refine ⟨by decide, by decide, by decide⟩

theorem jsOr_falsy {a : Option String} (h : optStr a = "") (b : String) :
    jsOr a b = b := by
  cases a with
  | none => rfl
  | some s =>
    simp only [optStr, Option.getD] at h
    simp [jsOr, h]

theorem jsOr_chain_of_truthy {a : Option String} {b : Option String}
    {d : String} (hd : d ≠ "") (h : jsOr a (optStr b) = d) (c : String) :
    jsOr a (jsOr b c) = d := by
  cases a with
  | some s =>
    by_cases hs : s = ""
    · rw [show jsOr (some s) (optStr b) = optStr b by simp [jsOr, hs]] at h
      rw [show jsOr (some s) (jsOr b c) = jsOr b c by simp [jsOr, hs]]
      cases b with
      | none => exact absurd h.symm (by simpa [optStr] using hd)
      | some sb =>
        simp only [optStr, Option.getD] at h
        subst h
        simp [jsOr, hd]
    · rw [show jsOr (some s) (optStr b) = s by simp [jsOr, hs]] at h
      rw [show jsOr (some s) (jsOr b c) = s by simp [jsOr, hs]]
      exact h
  | none =>
    simp only [jsOr] at h ⊢
    cases b with
    | none => exact absurd h.symm (by simpa [optStr] using hd)
    | some sb =>
      simp only [optStr, Option.getD] at h
      subst h
      simp [jsOr, hd]

/-- C8 (amended): two records carrying the same non-empty DOI in their
`metadata.doi`/`doi` fields, with no truthy higher-priority identifier
(`nct_id`, `data.nct_id`, `metadata.pmid`, `pmid`), receive the same
fingerprint from `resultId`, whatever their URLs, titles, sources or
dates, and for every deterministic digest: the DOI field outranks the
arXiv, normalized-URL and title|source|date fallbacks. -/
theorem resultId_same_doi_field (digest : String → String)
    (r₁ r₂ : RRecord) (d : String) (hd : d ≠ "")
    (h1a : optStr r₁.nct_id = "") (h1b : optStr r₁.data_nct_id = "")
    (h1c : optStr r₁.metadata_pmid = "") (h1d : optStr r₁.pmid = "")
    (h2a : optStr r₂.nct_id = "") (h2b : optStr r₂.data_nct_id = "")
    (h2c : optStr r₂.metadata_pmid = "") (h2d : optStr r₂.pmid = "")
    (hdoi₁ : jsOr r₁.metadata_doi (optStr r₁.doi) = d)
    (hdoi₂ : jsOr r₂.metadata_doi (optStr r₂.doi) = d) :
    resultId digest r₁ = resultId digest r₂ := by
  have hkey : ∀ r : RRecord, optStr r.nct_id = "" →
      optStr r.data_nct_id = "" → optStr r.metadata_pmid = "" →
      optStr r.pmid = "" → jsOr r.metadata_doi (optStr r.doi) = d →
      resultIdKey r = d := by
    intro r ha hb hc hdd hdoi
    unfold resultIdKey
    rw [jsOr_falsy ha, jsOr_falsy hb, jsOr_falsy hc, jsOr_falsy hdd]
    exact jsOr_chain_of_truthy hd hdoi _
  unfold resultId
  rw [hkey r₁ h1a h1b h1c h1d hdoi₁, hkey r₂ h2a h2b h2c h2d hdoi₂]

/-- Witness for the amended C8: one record carries the DOI in
`metadata.doi`, the other in `doi`; the URLs differ. -/
theorem resultId_same_doi_field_witness :
    resultId id { metadata_doi := some "10.1234/abc",
                  url := some "https://a.com/x" } =
      resultId id { doi := some "10.1234/abc",
                    url := some "https://b.com/y" } :=
  resultId_same_doi_field id
    { metadata_doi := some "10.1234/abc", url := some "https://a.com/x" }
    { doi := some "10.1234/abc", url := some "https://b.com/y" }
    "10.1234/abc" (by decide) (by decide) (by decide) (by decide)
    (by decide) (by decide) (by decide) (by decide) (by decide)
    (by decide) (by decide)

end Econ
